import Mathlib

/-
Verification of the cache-invalidation webhook dispatcher
(class WebhookManager in src/webhook.ts).

The embedding models JavaScript strings as `List Char`.  The global
literal-regex substitution `s.replace(/lit/g, rep)` is modelled by
`replaceAll`: a left-to-right scan that, at every occurrence of the
literal, inserts the GetSubstitution processing of the replacement
string (`$$`, `$&`, dollar-backquote and dollar-quote escapes; the
regexes of webhook.ts have no capture groups, so `$n` and `$<name>`
are literal text) and never rescans what was inserted.  The auxiliary
`verbatimReplace` scanner, which splices the replacement in literally,
coincides with `replaceAll` whenever the replacement contains no
dollar-escape sequence, and carries the compositional lemmas.  The
retry loop of
`sendWebhookRequest` is modelled as a recursion over the remaining
attempt budget, instrumented to count attempts and inter-attempt delays.
The debounce gate (`debouncePurgeCache`) is modelled against an explicit
timer table reflecting the `setTimeout` / `clearTimeout` runtime, so
that "at most one timer is pending" is a provable property rather than
a modelling assumption.
-/

namespace GhostProxy

/-! ### String scaffolding -/

/-- Character data of a string literal. -/
def toL (s : String) : List Char := s.data

/-- Concatenation of a list of character lists. -/
def cat : List (List Char) → List Char
  | [] => []
  | s :: rest => s ++ cat rest

/-- Interleave a separator between successive chunks. -/
def sepBy (sep : List Char) : List (List Char) → List Char
  | [] => []
  | [s] => s
  | s :: rest => s ++ sep ++ sepBy sep rest

/-- Test whether `p` occurs at the start of `s`. -/
def begins : List Char → List Char → Bool
  | [], _ => true
  | _ :: _, [] => false
  | p :: ps, c :: cs => p == c && begins ps cs

/-- ECMAScript GetSubstitution for a regex with no capture groups, as
applies to every regex in webhook.ts: in the replacement string, a
dollar followed by another dollar collapses to one dollar, dollar
ampersand inserts the matched text, dollar backquote (character 96)
inserts the portion of the subject before the match, dollar quote
(character 39) inserts the portion after the match; a dollar followed
by anything else (including digits and the angle bracket, since there
are no capture groups) is literal text. -/
def getSub (matched pre post : List Char) : List Char → List Char
  | [] => []
  | [c] => [c]
  | c :: c₂ :: rest =>
    if c = '$' then
      if c₂ = '$' then '$' :: getSub matched pre post rest
      else if c₂ = '&' then matched ++ getSub matched pre post rest
      else if c₂ = Char.ofNat 96 then pre ++ getSub matched pre post rest
      else if c₂ = Char.ofNat 39 then post ++ getSub matched pre post rest
      else '$' :: getSub matched pre post (c₂ :: rest)
    else c :: getSub matched pre post (c₂ :: rest)

/-- Fuelled scanner for `s.replace(/lit/g, rep)` with a string
replacement.  `pre` accumulates the subject text already scanned.  At
each position, if the (nonempty) literal matches, emit the
GetSubstitution processing of the replacement (the matched text is the
literal itself; the text before and after the match come from the
original subject) and resume after the match, never rescanning what was
inserted; otherwise keep the character. -/
def replaceAllGo (pat rep : List Char) : Nat → List Char → List Char → List Char
  | 0, _, s => s
  | fuel + 1, pre, s =>
    match s with
    | [] => []
    | c :: rest =>
      if pat ≠ [] ∧ begins pat s = true then
        getSub pat pre (List.drop pat.length s) rep ++
          replaceAllGo pat rep fuel (pre ++ pat) (List.drop pat.length s)
      else
        c :: replaceAllGo pat rep fuel (pre ++ [c]) rest

/-- Global literal replacement, `s.replace(/pat/g, rep)`, with the
ECMAScript processing of dollar escapes in the replacement string. -/
def replaceAll (pat rep s : List Char) : List Char :=
  replaceAllGo pat rep s.length [] s

/-- The replacement string contains no dollar immediately followed by
dollar, ampersand, backquote or quote, so GetSubstitution leaves it
unchanged. -/
def dollarSafeB : List Char → Bool
  | [] => true
  | _ :: [] => true
  | c :: c₂ :: rest =>
    if c = '$' ∧ (c₂ = '$' ∨ c₂ = '&' ∨ c₂ = Char.ofNat 96 ∨ c₂ = Char.ofNat 39) then false
    else dollarSafeB (c₂ :: rest)

/-- Propositional form of `dollarSafeB`. -/
abbrev dollarSafe (s : List Char) : Prop := dollarSafeB s = true

/-- Auxiliary scanner splicing the replacement in verbatim; it agrees
with `replaceAll` on dollar-safe replacements and carries the
compositional lemmas about occurrences. -/
def verbatimGo (pat rep : List Char) : Nat → List Char → List Char
  | 0, s => s
  | fuel + 1, s =>
    match s with
    | [] => []
    | c :: rest =>
      if pat ≠ [] ∧ begins pat s = true then
        rep ++ verbatimGo pat rep fuel (List.drop pat.length s)
      else
        c :: verbatimGo pat rep fuel rest

/-- Verbatim global replacement (auxiliary). -/
def verbatimReplace (pat rep s : List Char) : List Char :=
  verbatimGo pat rep s.length s

/-- A chunk of text containing no dollar sign (hence no placeholder). -/
abbrev noDollar (s : List Char) : Prop := '$' ∉ s

/-- No occurrence of `pat` starts inside `s`, whatever follows `s`. -/
def SegOk (pat s : List Char) : Prop :=
  ∀ i t, i < s.length → begins pat (List.drop i s ++ t) = false

/-- Substitution at the segment level: a segment equal to the literal
becomes the replacement, any other segment is untouched. -/
def substSeg (pat rep s : List Char) : List Char :=
  if s = pat then rep else s

/-! ### JSON serialization, as produced by JSON.stringify -/

/-- Lower-case hexadecimal digit. -/
def hexDigit (n : Nat) : Char :=
  if n < 10 then Char.ofNat (48 + n) else Char.ofNat (87 + n)

/-- Four-digit hexadecimal rendering used by the \u escape. -/
def hex4 (n : Nat) : List Char :=
  [hexDigit (n / 4096 % 16), hexDigit (n / 256 % 16),
   hexDigit (n / 16 % 16), hexDigit (n % 16)]

/-- Escape of one character inside a JSON string literal. -/
def jsonEscape (c : Char) : List Char :=
  if c = '"' then ['\\', '"']
  else if c = '\\' then ['\\', '\\']
  else if c = '\x08' then ['\\', 'b']
  else if c = '\t' then ['\\', 't']
  else if c = '\n' then ['\\', 'n']
  else if c = '\x0c' then ['\\', 'f']
  else if c = '\r' then ['\\', 'r']
  else if c.toNat < 32 then '\\' :: 'u' :: hex4 c.toNat
  else [c]

/-- JSON.stringify of a string value. -/
def jsonString (s : String) : List Char :=
  '"' :: (cat (s.data.map jsonEscape) ++ ['"'])

/-- JSON.stringify of an array of strings. -/
def jsonArray (urls : List String) : List Char :=
  '[' :: (sepBy [','] (urls.map jsonString) ++ [']'])

/-- JSON.stringify of a boolean. -/
def jsonBool (b : Bool) : List Char :=
  if b then toL ("true") else toL ("false")

/-- Drop one leading double quote if present. -/
def stripLeadQ : List Char → List Char
  | '"' :: rest => rest
  | s => s

/-- Model of `.replace(/^"|"$/g, mk ...)` on a JSON-quoted value: remove a
leading and a trailing double quote. -/
def stripQuotes (s : List Char) : List Char :=
  (stripLeadQ (stripLeadQ s).reverse).reverse

/-! ### Pattern interpreter (parseInvalidationPattern, webhook.ts lines 39-64) -/

/-- Structured invalidation intent, the InvalidationData record. -/
structure InvalidationData where
  urls : List String
  purgeAll : Bool
  pattern : String
  timestamp : String
deriving DecidableEq

/-- Model of `String.prototype.split(',')`. -/
def splitOnCommaL : List Char → List (List Char)
  | [] => [[]]
  | c :: rest =>
    if c = ',' then [] :: splitOnCommaL rest
    else
      match splitOnCommaL rest with
      | r :: rs => (c :: r) :: rs
      | [] => [[c]]

/-- Model of `String.prototype.trim()`: drop whitespace at both ends. -/
def trimL (s : List Char) : List Char :=
  ((s.dropWhile Char.isWhitespace).reverse.dropWhile Char.isWhitespace).reverse

/-- Translation of `parseInvalidationPattern`.  The ambient call
`new Date().toISOString()` is passed in as `nowIso`. -/
def parseInvalidationPattern (ghostPublicUrl nowIso pat : String) : InvalidationData :=
  let purgeAll : Bool := pat == ("/$/") || pat == ("/*")
  { urls :=
      if purgeAll then [ghostPublicUrl ++ ("/*")]
      else (splitOnCommaL pat.data).map
        (fun url => ghostPublicUrl ++ String.mk (trimL url)),
    purgeAll := purgeAll,
    pattern := pat,
    timestamp := nowIso }

/-! ### Body templater (processTemplate, webhook.ts lines 133-139) -/

/-- The four recognized body placeholders. -/
inductive Ph where
  | urls
  | purgeAll
  | timestamp
  | pattern
deriving DecidableEq

/-- Literal text of a placeholder. -/
def phText : Ph → List Char
  | Ph.urls => toL ("${urls}")
  | Ph.purgeAll => toL ("${purgeAll}")
  | Ph.timestamp => toL ("${timestamp}")
  | Ph.pattern => toL ("${pattern}")

/-- Serialized substitution value of a placeholder for a given intent. -/
def phValue (d : InvalidationData) : Ph → List Char
  | Ph.urls => jsonArray d.urls
  | Ph.purgeAll => jsonBool d.purgeAll
  | Ph.timestamp => stripQuotes (jsonString d.timestamp)
  | Ph.pattern => jsonString d.pattern

/-- Translation of `processTemplate`: four sequential global
replacements, in source order urls, purgeAll, timestamp, pattern. -/
def processTemplateL (template : List Char) (d : InvalidationData) : List Char :=
  replaceAll (phText Ph.pattern) (jsonString d.pattern)
    (replaceAll (phText Ph.timestamp) (stripQuotes (jsonString d.timestamp))
      (replaceAll (phText Ph.purgeAll) (jsonBool d.purgeAll)
        (replaceAll (phText Ph.urls) (jsonArray d.urls) template)))

/-- String-typed wrapper matching the source signature. -/
def processTemplate (template : String) (d : InvalidationData) : String :=
  String.mk (processTemplateL template.data d)

/-- A template token: a literal chunk or a placeholder. -/
inductive Tok where
  | lit : List Char → Tok
  | ph : Ph → Tok
deriving DecidableEq

/-- A literal token is benign when its text has no dollar sign. -/
def tokLitOk : Tok → Prop
  | Tok.lit s => noDollar s
  | Tok.ph _ => True

instance : (tk : Tok) → Decidable (tokLitOk tk)
  | Tok.lit s => inferInstanceAs (Decidable ('$' ∉ s))
  | Tok.ph _ => inferInstanceAs (Decidable True)

/-- Rendering of one token: placeholders in `done` carry their value,
the others still show their literal text. -/
def tokSeg (d : InvalidationData) (done : List Ph) : Tok → List Char
  | Tok.lit s => s
  | Tok.ph p => if p ∈ done then phValue d p else phText p

/-! ### Header templater (processHeaderTemplates, webhook.ts lines 141-152) -/

/-- Result of one `fetch` call: a response, or a transport-level error. -/
inductive FetchOutcome where
  | response (status : Nat) (errorText : String)
  | transportError (message : String)
deriving DecidableEq

/-- The `response.ok` classification of node-fetch: status in [200, 300). -/
def responseOk (status : Nat) : Bool :=
  decide (200 ≤ status) && decide (status < 300)

/-- Error raised by one attempt, if any: the thrown
`HTTP error {status}: {errorText}` for a non-ok response, the transport
error message for a failed fetch, none on success. -/
def attemptError : FetchOutcome → Option String
  | FetchOutcome.response status errorText =>
      if responseOk status then none
      else some (("HTTP error ") ++ toString status ++ (": ") ++ errorText)
  | FetchOutcome.transportError m => some m

/-- The retry loop, instrumented.  `attempt` is the 1-based attempt
counter, `r` the remaining iterations of `for (…; attempt <= retryCount;
…)`, `made` / `delays` / `waited` accumulate the attempts made, the
inter-attempt delays taken and the total time waited.  A successful
attempt returns immediately; a failing final attempt rethrows; otherwise
the loop waits `retryDelay` and continues. -/
def runAttempts (oc : Nat → Option String) (retryDelay : Nat) :
    Nat → Nat → Nat → Nat → Nat → Except String (Nat × Nat × Nat)
  | _, 0, made, delays, waited => Except.ok (made, delays, waited)
  | attempt, r + 1, made, delays, waited =>
    match oc attempt with
    | none => Except.ok (made + 1, delays, waited)
    | some err =>
      if r = 0 then Except.error err
      else runAttempts oc retryDelay (attempt + 1) r (made + 1) (delays + 1) (waited + retryDelay)

/-- Translation of the retry logic of `sendWebhookRequest`, abstracted
over the outcome of each attempt.  `retryCount` is an `Int` so that the
zero-iteration behaviour of the `for` loop for non-positive configured
counts is captured (`Int.toNat` of a non-positive value is 0). -/
def sendWebhookRequest (retryCount : Int) (retryDelay : Nat)
    (outcomes : Nat → FetchOutcome) : Except String (Nat × Nat × Nat) :=
  runAttempts (fun i => attemptError (outcomes i)) retryDelay 1 retryCount.toNat 0 0 0

/-! ### Debounce gate (debouncePurgeCache, webhook.ts lines 10-22) -/

/-- Lifecycle of a `setTimeout` timer. -/
inductive TimerStatus where
  | pending
  | fired
  | cancelled
deriving DecidableEq

/-- One timer created by `setTimeout`: when it would fire, the pattern
captured by its callback, and its status. -/
structure Timer where
  fireTime : Nat
  payload : String
  status : TimerStatus
deriving DecidableEq

/-- Dispatcher state: the table of all timers ever created (a handle is
an index into it), the `cachePurgeTimeout` field holding the handle of
the most recently scheduled timer, and the patterns delivered so far by
fired callbacks, in order. -/
structure WMState where
  timers : List Timer
  cachePurgeTimeout : Option Nat
  dispatched : List String
deriving DecidableEq

/-- The fixed quiescence window, `debounceTime = 10000` ms. -/
def debounceTime : Nat := 10000

/-- A freshly armed timer, as created by `setTimeout`. -/
def pendingTimer (ft : Nat) (p : String) : Timer :=
  { fireTime := ft, payload := p, status := TimerStatus.pending }

/-- A timer that has fired. -/
def firedTimer (ft : Nat) (p : String) : Timer :=
  { fireTime := ft, payload := p, status := TimerStatus.fired }

/-- Effect of `clearTimeout` on one timer: a pending timer is cancelled,
a fired or already-cancelled one is unaffected. -/
def clearFn (tm : Timer) : Timer :=
  if tm.status = TimerStatus.pending then { tm with status := TimerStatus.cancelled } else tm

/-- `clearTimeout(handle)` on the timer table. -/
def clearTimeoutAt : Nat → List Timer → List Timer
  | _, [] => []
  | 0, tm :: rest => clearFn tm :: rest
  | n + 1, tm :: rest => tm :: clearTimeoutAt n rest

/-- Translation of `debouncePurgeCache(pattern)` called at time `now`:
clear the previously stored timer if the field is set, then schedule a
new timer for `now + debounceTime` capturing `pattern`, and store its
handle. -/
def debouncePurgeCache (now : Nat) (pat : String) (s : WMState) : WMState :=
  let ts :=
    match s.cachePurgeTimeout with
    | some h => clearTimeoutAt h s.timers
    | none => s.timers
  { timers := ts ++ [pendingTimer (now + debounceTime) pat],
    cachePurgeTimeout := some ts.length,
    dispatched := s.dispatched }

/-- Effect of reaching time `now` on one timer: a due pending timer
fires, everything else is unaffected. -/
def fireFn (now : Nat) (tm : Timer) : Timer :=
  if tm.status = TimerStatus.pending ∧ tm.fireTime ≤ now then
    { tm with status := TimerStatus.fired }
  else tm

/-- Run every due pending timer, in creation order, collecting the
patterns their callbacks deliver. -/
def fireDueTimers (now : Nat) : List Timer → List Timer × List String
  | [] => ([], [])
  | tm :: rest =>
    let pr := fireDueTimers now rest
    if tm.status = TimerStatus.pending ∧ tm.fireTime ≤ now then
      ({ tm with status := TimerStatus.fired } :: pr.1, tm.payload :: pr.2)
    else (tm :: pr.1, pr.2)

/-- Advance the event loop to time `now`: due timers fire and their
callbacks dispatch their captured pattern. -/
def fireDue (now : Nat) (s : WMState) : WMState :=
  { timers := (fireDueTimers now s.timers).1,
    cachePurgeTimeout := s.cachePurgeTimeout,
    dispatched := s.dispatched ++ (fireDueTimers now s.timers).2 }

/-- Freshly constructed dispatcher: no timers, field null. -/
def initState : WMState :=
  { timers := [], cachePurgeTimeout := none, dispatched := [] }

/-- Execute a burst: for each call, advance the event loop to the call
time, then invoke `debouncePurgeCache`. -/
def runBurst : List (Nat × String) → WMState → WMState
  | [], s => s
  | (t, p) :: rest, s => runBurst rest (debouncePurgeCache t p (fireDue t s))

/-- Last element of a call list, with an explicit head. -/
def lastCall : (Nat × String) → List (Nat × String) → (Nat × String)
  | c, [] => c
  | _, c :: rest => lastCall c rest

/-- Call times are nondecreasing and each call arrives strictly before
the timer armed by the previous call would fire. -/
def chainOK : Nat → List (Nat × String) → Prop
  | _, [] => True
  | t, (t₁, _) :: rest => t ≤ t₁ ∧ t₁ < t + debounceTime ∧ chainOK t₁ rest

instance chainOKDec : (t : Nat) → (l : List (Nat × String)) → Decidable (chainOK t l)
  | _, [] => Decidable.isTrue trivial
  | t, (t₁, _) :: rest =>
    have : Decidable (chainOK t₁ rest) := chainOKDec t₁ rest
    inferInstanceAs (Decidable (t ≤ t₁ ∧ t₁ < t + debounceTime ∧ chainOK t₁ rest))

/-- Number of pending (armed, not yet fired or cancelled) timers. -/
def pendingCount (s : WMState) : Nat :=
  s.timers.countP (fun tm => tm.status == TimerStatus.pending)

/-- The dispatcher is armed: its timer table is some prefix of dead
timers followed by one pending timer firing at `ft` with pattern `p`,
the stored handle points at that timer, and `D` has been dispatched. -/
def Armed (s : WMState) (ft : Nat) (p : String) (D : List String) : Prop :=
  ∃ pre,
    s.timers = pre ++ [pendingTimer ft p] ∧
    (∀ tm ∈ pre, tm.status ≠ TimerStatus.pending) ∧
    s.cachePurgeTimeout = some pre.length ∧
    s.dispatched = D

/-- Handle invariant: when the field is null no timer is pending, and
otherwise only the timer at the stored handle can be pending. -/
def HandleInv (s : WMState) : Prop :=
  match s.cachePurgeTimeout with
  | none => ∀ tm ∈ s.timers, tm.status ≠ TimerStatus.pending
  | some h => ∀ i tm, s.timers.get? i = some tm → tm.status = TimerStatus.pending → i = h

/-! ## Delivery engine: retry, exhaustion, degenerate budget -/

theorem runAttempts_success (oc : Nat → Option String) (delay : Nat) :
    ∀ (k attempt r made delays waited : Nat), 1 ≤ k → k ≤ r →
      (∀ j, j < k - 1 → oc (attempt + j) ≠ none) →
      oc (attempt + (k - 1)) = none →
      runAttempts oc delay attempt r made delays waited =
        Except.ok (made + k, delays + (k - 1), waited + (k - 1) * delay) := by
  intro k
  induction k with
  | zero => intro attempt r made delays waited hk; omega
  | succ k ih =>
    intro attempt r made delays waited _ hkr hfail hsucc
    obtain ⟨r, rfl⟩ : ∃ r', r = r' + 1 := ⟨r - 1, by omega⟩
    cases k with
    | zero =>
      have hs : oc attempt = none := by simpa using hsucc
      unfold runAttempts
      rw [hs]
      simp
    | succ k =>
      have h0 : oc attempt ≠ none := by
        have := hfail 0 (by omega)
        simpa using this
      obtain ⟨err, herr⟩ : ∃ e, oc attempt = some e := by
        cases h : oc attempt with
        | none => exact absurd h h0
        | some e => exact ⟨e, rfl⟩
      have hr : r ≠ 0 := by omega
      unfold runAttempts
      rw [herr]
      dsimp only
      rw [if_neg hr]
      have ih2 := ih (attempt + 1) r (made + 1) (delays + 1) (waited + delay)
        (by omega) (by omega)
        (by
          intro j hj
          have := hfail (j + 1) (by omega)
          simpa [Nat.add_assoc, Nat.add_comm 1 j] using this)
        (by
          have : attempt + 1 + (k + 1 - 1) = attempt + (k + 1 + 1 - 1) := by omega
          rw [this]
          exact hsucc)
      rw [ih2]
      congr 1
      simp only [Prod.mk.injEq]
      refine ⟨by omega, by omega, ?_⟩
      have : k + 1 + 1 - 1 = k + 1 := by omega
      rw [this]
      have : k + 1 - 1 = k := by omega
      rw [this]
      rw [Nat.succ_mul]
      ring

/-- C2: with retryCount N ≥ 1, if attempts 1..k-1 fail and attempt k
succeeds (k ≤ N), the delivery engine returns success after exactly k
attempts, exactly k-1 inter-attempt delays, having waited (k-1) times
the fixed configured retryDelay, and makes no further attempt. -/
theorem deliver_success (N k delay : Nat) (outcomes : Nat → FetchOutcome)
    (hk : 1 ≤ k) (hkN : k ≤ N)
    (hfail : ∀ i, i < k → 1 ≤ i → attemptError (outcomes i) ≠ none)
    (hsucc : attemptError (outcomes k) = none) :
    sendWebhookRequest (N : Int) delay outcomes =
      Except.ok (k, k - 1, (k - 1) * delay) := by
  unfold sendWebhookRequest
  have htn : (N : Int).toNat = N := Int.toNat_ofNat N
  rw [htn]
  have h := runAttempts_success (fun i => attemptError (outcomes i)) delay k 1 N 0 0 0
    hk hkN
    (by
      intro j hj
      exact hfail (1 + j) (by omega) (by omega))
    (by
      have : 1 + (k - 1) = k := by omega
      rw [this]
      exact hsucc)
  simpa using h

/-- C2 witness: retryCount 3, transport failures on attempts 1 and 2,
HTTP 200 on attempt 3: success with 3 attempts, 2 delays, 14 ms waited. -/
theorem deliver_success_witness :
    (1 : Nat) ≤ 3 ∧ (3 : Nat) ≤ 3 ∧
    (∀ i, i < 3 → 1 ≤ i →
      attemptError ((fun n => if n < 3 then FetchOutcome.transportError ("boom")
        else FetchOutcome.response 200 ("")) i) ≠ none) ∧
    attemptError ((fun n => if n < 3 then FetchOutcome.transportError ("boom")
        else FetchOutcome.response 200 ("")) 3) = none ∧
    sendWebhookRequest ((3 : Nat) : Int) 7
        (fun n => if n < 3 then FetchOutcome.transportError ("boom")
          else FetchOutcome.response 200 ("")) =
      Except.ok (3, 2, 14) :=
  ⟨by decide, by decide, by decide, by decide,
    deliver_success 3 3 7 _ (by decide) (by decide) (by decide) (by decide)⟩

theorem runAttempts_exhaust (oc : Nat → Option String) (delay : Nat) :
    ∀ (r attempt made delays waited : Nat) (err : String), 1 ≤ r →
      (∀ j, j < r → oc (attempt + j) ≠ none) →
      oc (attempt + (r - 1)) = some err →
      runAttempts oc delay attempt r made delays waited = Except.error err := by
  intro r
  induction r with
  | zero => intro attempt made delays waited err h; omega
  | succ r ih =>
    intro attempt made delays waited err _ hfail hlast
    cases r with
    | zero =>
      have hs : oc attempt = some err := by simpa using hlast
      unfold runAttempts
      rw [hs]
      simp
    | succ r =>
      have h0 : oc attempt ≠ none := by
        have := hfail 0 (by omega)
        simpa using this
      obtain ⟨e, he⟩ : ∃ e, oc attempt = some e := by
        cases h : oc attempt with
        | none => exact absurd h h0
        | some e => exact ⟨e, rfl⟩
      unfold runAttempts
      rw [he]
      dsimp only
      rw [if_neg (by omega : ¬ r + 1 = 0)]
      exact ih (attempt + 1) (made + 1) (delays + 1) (waited + delay) err (by omega)
        (by
          intro j hj
          have := hfail (j + 1) (by omega)
          simpa [Nat.add_assoc, Nat.add_comm 1 j] using this)
        (by
          have : attempt + 1 + (r + 1 - 1) = attempt + (r + 1 + 1 - 1) := by omega
          rw [this]
          exact hlast)

/-- C3: with retryCount N ≥ 1, if every attempt fails (non-ok status or
transport error), the delivery engine raises the error of the last
attempt, carrying the status and text of that attempt or transport message. -/
theorem deliver_exhaust (N delay : Nat) (outcomes : Nat → FetchOutcome) (err : String)
    (hN : 1 ≤ N)
    (hfail : ∀ i, i < N → attemptError (outcomes (i + 1)) ≠ none)
    (hlast : attemptError (outcomes N) = some err) :
    sendWebhookRequest (N : Int) delay outcomes = Except.error err := by
  unfold sendWebhookRequest
  rw [Int.toNat_ofNat N]
  exact runAttempts_exhaust (fun i => attemptError (outcomes i)) delay N 1 0 0 0 err hN
    (by
      intro j hj
      have := hfail j hj
      simpa [Nat.add_comm 1 j] using this)
    (by
      have : 1 + (N - 1) = N := by omega
      rw [this]
      exact hlast)

/-- C3 witness: retryCount 2, transport error then HTTP 500: the raised
error carries the status and body text of the last attempt. -/
theorem deliver_exhaust_witness :
    (1 : Nat) ≤ 2 ∧
    (∀ i, i < 2 →
      attemptError ((fun n => if n = 1 then FetchOutcome.transportError ("ECONNREFUSED")
        else FetchOutcome.response 500 ("Internal Server Error")) (i + 1)) ≠ none) ∧
    attemptError ((fun n => if n = 1 then FetchOutcome.transportError ("ECONNREFUSED")
        else FetchOutcome.response 500 ("Internal Server Error")) 2) =
      some (("HTTP error 500: Internal Server Error")) ∧
    sendWebhookRequest ((2 : Nat) : Int) 5
        (fun n => if n = 1 then FetchOutcome.transportError ("ECONNREFUSED")
          else FetchOutcome.response 500 ("Internal Server Error")) =
      Except.error (("HTTP error 500: Internal Server Error")) :=
  ⟨by decide, by decide, by decide,
    deliver_exhaust 2 5 _ _ (by decide) (by decide) (by decide)⟩

/-- C10: with a configured retry count of 0 or negative, the `for` loop
body never executes: the delivery engine returns without making any
HTTP attempt, any delay, or raising any error. -/
theorem deliver_no_retry (rc : Int) (delay : Nat) (outcomes : Nat → FetchOutcome)
    (h : rc ≤ 0) :
    sendWebhookRequest rc delay outcomes = Except.ok (0, 0, 0) := by
  unfold sendWebhookRequest
  rw [Int.toNat_of_nonpos h]
  rfl

/-- C10 witness: retry counts 0 and -1 both return success with zero
attempts. -/
theorem deliver_no_retry_witness :
    ((0 : Int) ≤ 0 ∧
      sendWebhookRequest 0 5 (fun _ => FetchOutcome.response 500 ("x")) =
        Except.ok (0, 0, 0)) ∧
    ((-1 : Int) ≤ 0 ∧
      sendWebhookRequest (-1) 5 (fun _ => FetchOutcome.response 500 ("x")) =
        Except.ok (0, 0, 0)) :=
  ⟨⟨by decide, deliver_no_retry 0 5 _ (by decide)⟩,
   ⟨by decide, deliver_no_retry (-1) 5 _ (by decide)⟩⟩

/-! ## Pattern interpreter: sentinels, fragments, totality -/

/-- C4: both full-purge sentinels yield purgeAll = true and a single
wildcard URL built from the configured public base URL. -/
theorem parse_sentinel (b t p : String) (h : p = ("/$/") ∨ p = ("/*")) :
    (parseInvalidationPattern b t p).purgeAll = true ∧
    (parseInvalidationPattern b t p).urls = [b ++ ("/*")] := by
  rcases h with rfl | rfl <;> exact ⟨rfl, rfl⟩

/-- C4 witness: the pattern seen from Ghost for a full purge. -/
theorem parse_sentinel_witness :
    (("/$/" : String) = ("/$/") ∨ ("/$/" : String) = ("/*")) ∧
    ((parseInvalidationPattern ("https://site") ("T") ("/$/")).purgeAll = true ∧
      (parseInvalidationPattern ("https://site") ("T") ("/$/")).urls =
        [("https://site") ++ ("/*")]) :=
  ⟨Or.inl rfl, parse_sentinel ("https://site") ("T") ("/$/") (Or.inl rfl)⟩

theorem getD_map_chunks (b : String) :
    ∀ (l : List (List Char)) (i : Nat), i < l.length →
      (l.map (fun url => b ++ String.mk (trimL url))).getD i ("") =
        b ++ String.mk (trimL (l.getD i ([]))) := by
  intro l
  induction l with
  | nil => intro i hi; simp at hi
  | cons a l ih =>
    intro i hi
    cases i with
    | zero => rfl
    | succ j => exact ih j (by simpa using hi)

/-- C5: a non-sentinel pattern of k comma-separated fragments yields
purgeAll = false and exactly k URLs, the i-th being the base URL
followed by the i-th fragment trimmed, in order, duplicates kept. -/
theorem parse_fragments (b t p : String) (h1 : p ≠ ("/$/")) (h2 : p ≠ ("/*")) :
    (parseInvalidationPattern b t p).purgeAll = false ∧
    (parseInvalidationPattern b t p).urls.length = (splitOnCommaL p.data).length ∧
    ∀ i, i < (splitOnCommaL p.data).length →
      (parseInvalidationPattern b t p).urls.getD i ("") =
        b ++ String.mk (trimL ((splitOnCommaL p.data).getD i ([]))) := by
  have hp : (p == ("/$/") || p == ("/*")) = false := by
    simp only [Bool.or_eq_false_iff, beq_eq_false_iff_ne, ne_eq]
    exact ⟨h1, h2⟩
  have hurls : (parseInvalidationPattern b t p).urls =
      (splitOnCommaL p.data).map (fun url => b ++ String.mk (trimL url)) := by
    unfold parseInvalidationPattern
    simp [hp]
  refine ⟨?_, ?_, ?_⟩
  · unfold parseInvalidationPattern
    simp [hp]
  · rw [hurls]
    simp
  · intro i hi
    rw [hurls]
    exact getD_map_chunks b (splitOnCommaL p.data) i hi

/-- C5 witness: the multi-page pattern from the source comments. -/
theorem parse_fragments_witness :
    (("/, /page/*, /rss" : String) ≠ ("/$/")) ∧
    (("/, /page/*, /rss" : String) ≠ ("/*")) ∧
    ((parseInvalidationPattern ("https://site") ("T") ("/, /page/*, /rss")).purgeAll = false ∧
      (parseInvalidationPattern ("https://site") ("T") ("/, /page/*, /rss")).urls.length =
        (splitOnCommaL (toL ("/, /page/*, /rss"))).length ∧
      ∀ i, i < (splitOnCommaL (toL ("/, /page/*, /rss"))).length →
        (parseInvalidationPattern ("https://site") ("T") ("/, /page/*, /rss")).urls.getD i ("") =
          ("https://site") ++ String.mk (trimL ((splitOnCommaL (toL ("/, /page/*, /rss"))).getD i ([]))) ) :=
  ⟨by decide, by decide,
    parse_fragments ("https://site") ("T") ("/, /page/*, /rss") (by decide) (by decide)⟩

/-- C9: the interpreter is a total function of the pattern string; on
the empty string it returns purgeAll = false and a single URL equal to
the bare configured base URL. -/
theorem parse_total_empty (b t : String) :
    (parseInvalidationPattern b t ("")).purgeAll = false ∧
    (parseInvalidationPattern b t ("")).urls = [b] := by
  refine ⟨rfl, ?_⟩
  show [b ++ String.mk (trimL [])] = [b]
  have hb : b ++ String.mk [] = b := by
    cases b with
    | mk data => exact congrArg String.mk (List.append_nil data)
  rw [show trimL [] = [] from rfl, hb]

/-! ## Global literal replacement: scan lemmas -/

theorem verbatimGo_zero (pat rep : List Char) (s : List Char) :
    verbatimGo pat rep 0 s = s := rfl

theorem verbatimGo_succ_nil (pat rep : List Char) (f : Nat) :
    verbatimGo pat rep (f + 1) [] = [] := rfl

theorem verbatimGo_cons (pat rep : List Char) (f : Nat) (c : Char) (cs : List Char) :
    verbatimGo pat rep (f + 1) (c :: cs) =
      if pat ≠ [] ∧ begins pat (c :: cs) = true then
        rep ++ verbatimGo pat rep f (List.drop pat.length (c :: cs))
      else
        c :: verbatimGo pat rep f cs := rfl

theorem verbatimGo_irrel (pat rep : List Char) :
    ∀ f₁ f₂ s, s.length ≤ f₁ → s.length ≤ f₂ →
      verbatimGo pat rep f₁ s = verbatimGo pat rep f₂ s := by
  intro f₁
  induction f₁ with
  | zero =>
    intro f₂ s h1 h2
    have hs : s = [] := by
      cases s with
      | nil => rfl
      | cons c cs => simp at h1
    subst hs
    cases f₂ <;> rfl
  | succ f ih =>
    intro f₂ s h1 h2
    cases s with
    | nil => cases f₂ <;> rfl
    | cons c cs =>
      obtain ⟨g, rfl⟩ : ∃ g, f₂ = g + 1 := ⟨f₂ - 1, by simp at h2; omega⟩
      rw [verbatimGo_cons, verbatimGo_cons]
      by_cases h : pat ≠ [] ∧ begins pat (c :: cs) = true
      · rw [if_pos h, if_pos h]
        have hplen : 1 ≤ pat.length := by
          cases hp : pat with
          | nil => exact absurd hp h.1
          | cons x xs => simp
        have hd1 : (List.drop pat.length (c :: cs)).length ≤ f := by
          simp only [List.length_drop, List.length_cons]
          simp at h1
          omega
        have hd2 : (List.drop pat.length (c :: cs)).length ≤ g := by
          simp only [List.length_drop, List.length_cons]
          simp at h2
          omega
        rw [ih g _ hd1 hd2]
      · rw [if_neg h, if_neg h]
        have hc1 : cs.length ≤ f := by simp at h1; omega
        have hc2 : cs.length ≤ g := by simp at h2; omega
        rw [ih g cs hc1 hc2]

theorem begins_append_self : ∀ (p t : List Char), begins p (p ++ t) = true := by
  intro p
  induction p with
  | nil => intro t; rfl
  | cons q qs ih => intro t; simp [begins, ih]

theorem verbatimReplace_fire (pat rep t : List Char) (h : pat ≠ []) :
    verbatimReplace pat rep (pat ++ t) = rep ++ verbatimReplace pat rep t := by
  obtain ⟨q, qs, rfl⟩ : ∃ q qs, pat = q :: qs := by
    cases pat with
    | nil => exact absurd rfl h
    | cons q qs => exact ⟨q, qs, rfl⟩
  show verbatimGo (q :: qs) rep ((qs ++ t).length + 1) (q :: (qs ++ t)) =
    rep ++ verbatimReplace (q :: qs) rep t
  rw [verbatimGo_cons]
  rw [if_pos ⟨h, begins_append_self (q :: qs) t⟩]
  have hdrop : List.drop (q :: qs).length (q :: (qs ++ t)) = t := by
    show List.drop qs.length (qs ++ t) = t
    exact List.drop_left qs t
  rw [hdrop]
  congr 1
  exact verbatimGo_irrel (q :: qs) rep (qs ++ t).length t.length t
    (by simp) (le_refl _)

theorem verbatimReplace_skip_char (pat rep : List Char) (c : Char) (s : List Char)
    (h : begins pat (c :: s) = false) :
    verbatimReplace pat rep (c :: s) = c :: verbatimReplace pat rep s := by
  show verbatimGo pat rep (s.length + 1) (c :: s) = c :: verbatimReplace pat rep s
  rw [verbatimGo_cons]
  rw [if_neg (by simp [h])]
  rfl

theorem begins_false_head (q : Char) (qs : List Char) (c : Char) (cs : List Char)
    (h : q ≠ c) : begins (q :: qs) (c :: cs) = false := by
  have hb : (q == c) = false := beq_eq_false_iff_ne.mpr h
  simp [begins, hb]

theorem begins_agree : ∀ (p s : List Char), begins p s = true →
    ∀ j, j < p.length → p.getD j ' ' = s.getD j ' ' := by
  intro p
  induction p with
  | nil => intro s h j hj; simp at hj
  | cons q qs ih =>
    intro s h j hj
    cases s with
    | nil => simp [begins] at h
    | cons c cs =>
      simp only [begins, Bool.and_eq_true, beq_iff_eq] at h
      obtain ⟨rfl, h2⟩ := h
      cases j with
      | zero => rfl
      | succ j => exact ih cs h2 j (by simpa using hj)

theorem drop_getD_cons : ∀ (s : List Char) (i : Nat), i < s.length →
    List.drop i s = s.getD i ' ' :: List.drop (i + 1) s := by
  intro s
  induction s with
  | nil => intro i hi; simp at hi
  | cons c cs ih =>
    intro i hi
    cases i with
    | zero => rfl
    | succ j => exact ih j (by simpa using hi)

theorem getD_mem_of_lt : ∀ (s : List Char) (i : Nat), i < s.length → s.getD i ' ' ∈ s := by
  intro s
  induction s with
  | nil => intro i hi; simp at hi
  | cons c cs ih =>
    intro i hi
    cases i with
    | zero => exact List.mem_cons_self c cs
    | succ j => exact List.mem_cons_of_mem c (ih j (by simpa using hi))

theorem getD_append_left : ∀ (s t : List Char) (j : Nat), j < s.length →
    (s ++ t).getD j ' ' = s.getD j ' ' := by
  intro s
  induction s with
  | nil => intro t j hj; simp at hj
  | cons c cs ih =>
    intro t j hj
    cases j with
    | zero => rfl
    | succ i => exact ih t i (by simpa using hj)

theorem segOk_cons (pat : List Char) (c : Char) (s : List Char)
    (h : SegOk pat (c :: s)) : SegOk pat s := by
  intro i t hi
  exact h (i + 1) t (Nat.succ_lt_succ hi)

theorem verbatimReplace_seg (pat rep : List Char) :
    ∀ (s t : List Char), SegOk pat s →
      verbatimReplace pat rep (s ++ t) = s ++ verbatimReplace pat rep t := by
  intro s
  induction s with
  | nil => intro t h; rfl
  | cons c s ih =>
    intro t h
    have h0 : begins pat ((c :: s) ++ t) = false := h 0 t (by simp)
    show verbatimReplace pat rep (c :: (s ++ t)) = c :: (s ++ verbatimReplace pat rep t)
    rw [verbatimReplace_skip_char pat rep c (s ++ t) h0]
    rw [ih t (segOk_cons pat c s h)]

theorem segOk_noDollar (pat s : List Char)
    (hpat : pat.getD 0 ' ' = '$') (hne : pat ≠ [])
    (h : noDollar s) : SegOk pat s := by
  obtain ⟨q, qs, rfl⟩ : ∃ q qs, pat = q :: qs := by
    cases pat with
    | nil => exact absurd rfl hne
    | cons q qs => exact ⟨q, qs, rfl⟩
  have hq : q = '$' := hpat
  subst hq
  intro i t hi
  have hc : s.getD i ' ' ≠ '$' := by
    intro he
    exact h (he ▸ getD_mem_of_lt s i hi)
  rw [drop_getD_cons s i hi]
  exact begins_false_head '$' qs (s.getD i ' ') (List.drop (i + 1) s ++ t) (Ne.symm hc)

theorem segOk_diff (pat s : List Char)
    (hpat : pat.getD 0 ' ' = '$') (hne : pat ≠ [])
    (hrest : ∀ i, i < s.length → 0 < i → s.getD i ' ' ≠ '$')
    (hdiff : ∃ j, j < pat.length ∧ j < s.length ∧ pat.getD j ' ' ≠ s.getD j ' ') :
    SegOk pat s := by
  intro i t hi
  cases i with
  | zero =>
    cases hb : begins pat (List.drop 0 s ++ t) with
    | false => rfl
    | true =>
      obtain ⟨j, hj1, hj2, hj3⟩ := hdiff
      have hb2 : begins pat (s ++ t) = true := hb
      have hag := begins_agree pat (s ++ t) hb2 j hj1
      rw [getD_append_left s t j hj2] at hag
      exact (hj3 hag).elim
  | succ i =>
    obtain ⟨q, qs, rfl⟩ : ∃ q qs, pat = q :: qs := by
      cases pat with
      | nil => exact absurd rfl hne
      | cons q qs => exact ⟨q, qs, rfl⟩
    have hq : q = '$' := hpat
    subst hq
    rw [drop_getD_cons s (i + 1) hi]
    exact begins_false_head '$' qs (s.getD (i + 1) ' ') (List.drop (i + 2) s ++ t)
      (Ne.symm (hrest (i + 1) hi (by omega)))

theorem verbatimReplace_cat (pat rep : List Char) (hpat : pat ≠ []) :
    ∀ segs : List (List Char),
      (∀ s ∈ segs, s = pat ∨ SegOk pat s) →
      verbatimReplace pat rep (cat segs) = cat (segs.map (substSeg pat rep)) := by
  intro segs
  induction segs with
  | nil => intro h; rfl
  | cons s rest ih =>
    intro h
    have hr : ∀ x ∈ rest, x = pat ∨ SegOk pat x :=
      fun x hx => h x (List.mem_cons_of_mem s hx)
    show verbatimReplace pat rep (s ++ cat rest) =
      substSeg pat rep s ++ cat (rest.map (substSeg pat rep))
    by_cases hsp : s = pat
    · rw [hsp]
      rw [verbatimReplace_fire pat rep (cat rest) hpat]
      rw [ih hr]
      rw [show substSeg pat rep pat = rep from if_pos rfl]
    · have hseg : SegOk pat s := by
        rcases h s (List.mem_cons_self s rest) with h1 | h2
        · exact absurd h1 hsp
        · exact h2
      rw [verbatimReplace_seg pat rep s (cat rest) hseg]
      rw [ih hr]
      rw [show substSeg pat rep s = s from if_neg hsp]

theorem map_congr_mem {α β : Type} (f g : α → β) :
    ∀ l : List α, (∀ a ∈ l, f a = g a) → l.map f = l.map g := by
  intro l
  induction l with
  | nil => intro h; rfl
  | cons a l ih =>
    intro h
    simp only [List.map_cons]
    rw [h a (List.mem_cons_self a l), ih (fun x hx => h x (List.mem_cons_of_mem a hx))]

/-! ## Placeholder text facts -/

theorem phText_dollar_mem (p : Ph) : '$' ∈ phText p := by
  cases p <;> decide

theorem phText_head (p : Ph) : (phText p).getD 0 ' ' = '$' := by
  cases p <;> decide

theorem phText_ne_nil (p : Ph) : phText p ≠ [] := by
  cases p <;> decide

theorem phText_inj (p q : Ph) (h : p ≠ q) : phText p ≠ phText q := by
  cases p <;> cases q <;> first | exact absurd rfl h | decide

theorem ne_phText_of_noDollar (s : List Char) (q : Ph) (h : noDollar s) :
    s ≠ phText q := by
  intro he
  exact h (by rw [he]; exact phText_dollar_mem q)

theorem jsonBool_noDollar (b : Bool) : noDollar (jsonBool b) := by
  cases b <;> decide

theorem segOk_phText (p q : Ph) (h : p ≠ q) : SegOk (phText q) (phText p) := by
  cases p <;> cases q <;>
    first
      | exact absurd rfl h
      | exact segOk_diff _ _ (by decide) (by decide) (by decide) ⟨2, by decide⟩
      | exact segOk_diff _ _ (by decide) (by decide) (by decide) ⟨3, by decide⟩

/-! ## Faithful replacement: GetSubstitution and the verbatim bridge -/

theorem dollarSafeB_cons₂ (c c₂ : Char) (rest : List Char) :
    dollarSafeB (c :: c₂ :: rest) =
      if c = '$' ∧ (c₂ = '$' ∨ c₂ = '&' ∨ c₂ = Char.ofNat 96 ∨ c₂ = Char.ofNat 39) then false
      else dollarSafeB (c₂ :: rest) := rfl

theorem dollarSafeB_tail (c : Char) (rest : List Char)
    (h : dollarSafeB (c :: rest) = true) : dollarSafeB rest = true := by
  cases rest with
  | nil => rfl
  | cons c₂ r₂ =>
    rw [dollarSafeB_cons₂] at h
    by_cases hc : c = '$' ∧ (c₂ = '$' ∨ c₂ = '&' ∨ c₂ = Char.ofNat 96 ∨ c₂ = Char.ofNat 39)
    · rw [if_pos hc] at h
      exact absurd h (by decide)
    · rw [if_neg hc] at h
      exact h

theorem getSub_cons₂ (matched pre post : List Char) (c c₂ : Char) (rest : List Char) :
    getSub matched pre post (c :: c₂ :: rest) =
      if c = '$' then
        if c₂ = '$' then '$' :: getSub matched pre post rest
        else if c₂ = '&' then matched ++ getSub matched pre post rest
        else if c₂ = Char.ofNat 96 then pre ++ getSub matched pre post rest
        else if c₂ = Char.ofNat 39 then post ++ getSub matched pre post rest
        else '$' :: getSub matched pre post (c₂ :: rest)
      else c :: getSub matched pre post (c₂ :: rest) := rfl

theorem getSub_id (matched pre post : List Char) :
    ∀ rep, dollarSafe rep → getSub matched pre post rep = rep := by
  intro rep
  induction rep with
  | nil => intro h; rfl
  | cons c rest ih =>
    intro h
    cases rest with
    | nil => rfl
    | cons c₂ r₂ =>
      have htail : dollarSafe (c₂ :: r₂) := dollarSafeB_tail c (c₂ :: r₂) h
      rw [getSub_cons₂]
      by_cases hc : c = '$'
      · rw [if_pos hc]
        have h' : dollarSafeB (c :: c₂ :: r₂) = true := h
        rw [dollarSafeB_cons₂] at h'
        have hnot : ¬(c = '$' ∧ (c₂ = '$' ∨ c₂ = '&' ∨ c₂ = Char.ofNat 96 ∨ c₂ = Char.ofNat 39)) := by
          intro hcon
          rw [if_pos hcon] at h'
          exact absurd h' (by decide)
        have h2 : ¬(c₂ = '$' ∨ c₂ = '&' ∨ c₂ = Char.ofNat 96 ∨ c₂ = Char.ofNat 39) :=
          fun hd => hnot ⟨hc, hd⟩
        rw [if_neg (fun hd => h2 (Or.inl hd))]
        rw [if_neg (fun hd => h2 (Or.inr (Or.inl hd)))]
        rw [if_neg (fun hd => h2 (Or.inr (Or.inr (Or.inl hd))))]
        rw [if_neg (fun hd => h2 (Or.inr (Or.inr (Or.inr hd))))]
        rw [ih htail]
        rw [hc]
      · rw [if_neg hc]
        rw [ih htail]

theorem noDollar_dollarSafe : ∀ (s : List Char), noDollar s → dollarSafe s := by
  intro s
  induction s with
  | nil => intro h; rfl
  | cons c rest ih =>
    intro h
    cases rest with
    | nil => rfl
    | cons c₂ r₂ =>
      have hcne : ¬(c = '$' ∧ (c₂ = '$' ∨ c₂ = '&' ∨ c₂ = Char.ofNat 96 ∨ c₂ = Char.ofNat 39)) := by
        intro hcon
        apply h
        rw [← hcon.1]
        exact List.mem_cons_self c (c₂ :: r₂)
      show dollarSafeB (c :: c₂ :: r₂) = true
      rw [dollarSafeB_cons₂, if_neg hcne]
      exact ih (fun hm => h (List.mem_cons_of_mem c hm))

theorem replaceAllGo_nil (pat rep : List Char) (fuel : Nat) (pre : List Char) :
    replaceAllGo pat rep fuel pre [] = [] := by
  cases fuel <;> rfl

theorem replaceAllGo_cons (pat rep : List Char) (f : Nat) (pre : List Char)
    (c : Char) (cs : List Char) :
    replaceAllGo pat rep (f + 1) pre (c :: cs) =
      if pat ≠ [] ∧ begins pat (c :: cs) = true then
        getSub pat pre (List.drop pat.length (c :: cs)) rep ++
          replaceAllGo pat rep f (pre ++ pat) (List.drop pat.length (c :: cs))
      else
        c :: replaceAllGo pat rep f (pre ++ [c]) cs := rfl

theorem replaceAllGo_eq_verbatim (pat rep : List Char) (hrep : dollarSafe rep) :
    ∀ fuel pre s, replaceAllGo pat rep fuel pre s = verbatimGo pat rep fuel s := by
  intro fuel
  induction fuel with
  | zero => intro pre s; rfl
  | succ f ih =>
    intro pre s
    cases s with
    | nil => rfl
    | cons c cs =>
      rw [replaceAllGo_cons, verbatimGo_cons]
      by_cases h : pat ≠ [] ∧ begins pat (c :: cs) = true
      · rw [if_pos h, if_pos h]
        rw [getSub_id pat pre (List.drop pat.length (c :: cs)) rep hrep]
        rw [ih]
      · rw [if_neg h, if_neg h]
        rw [ih]

theorem replaceAll_eq_verbatim (pat rep s : List Char) (hrep : dollarSafe rep) :
    replaceAll pat rep s = verbatimReplace pat rep s :=
  replaceAllGo_eq_verbatim pat rep hrep s.length [] s

theorem replaceAll_self (pat rep : List Char) (h : pat ≠ []) :
    replaceAll pat rep pat = getSub pat [] [] rep := by
  obtain ⟨q, qs, rfl⟩ : ∃ q qs, pat = q :: qs := by
    cases pat with
    | nil => exact absurd rfl h
    | cons q qs => exact ⟨q, qs, rfl⟩
  show replaceAllGo (q :: qs) rep (qs.length + 1) [] (q :: qs) = getSub (q :: qs) [] [] rep
  rw [replaceAllGo_cons]
  have hbeg : begins (q :: qs) (q :: qs) = true := by
    have hb := begins_append_self (q :: qs) []
    rwa [List.append_nil] at hb
  rw [if_pos ⟨h, hbeg⟩]
  rw [List.drop_length]
  rw [replaceAllGo_nil]
  rw [List.append_nil]

/-! ## Body templater -/

theorem tokSeg_pass (d : InvalidationData) (q : Ph) (done : List Ph) (hq : q ∉ done)
    (ts : List Tok) (hlit : ∀ tk ∈ ts, tokLitOk tk)
    (hvals : ∀ p, noDollar (phValue d p)) :
    verbatimReplace (phText q) (phValue d q) (cat (ts.map (tokSeg d done))) =
      cat (ts.map (tokSeg d (q :: done))) := by
  have hsegs : ∀ s ∈ ts.map (tokSeg d done), s = phText q ∨ SegOk (phText q) s := by
    intro s hs
    obtain ⟨tk, htk, rfl⟩ := List.mem_map.mp hs
    cases tk with
    | lit s' =>
      right
      exact segOk_noDollar _ _ (phText_head q) (phText_ne_nil q) (hlit _ htk)
    | ph p =>
      show (if p ∈ done then phValue d p else phText p) = phText q ∨
        SegOk (phText q) (if p ∈ done then phValue d p else phText p)
      by_cases hp : p ∈ done
      · rw [if_pos hp]
        right
        exact segOk_noDollar _ _ (phText_head q) (phText_ne_nil q) (hvals p)
      · rw [if_neg hp]
        by_cases hpq : p = q
        · left
          rw [hpq]
        · right
          exact segOk_phText p q hpq
  rw [verbatimReplace_cat (phText q) (phValue d q) (phText_ne_nil q) (ts.map (tokSeg d done)) hsegs]
  rw [List.map_map]
  congr 1
  apply map_congr_mem
  intro tk htk
  cases tk with
  | lit s' =>
    show substSeg (phText q) (phValue d q) s' = s'
    unfold substSeg
    rw [if_neg (ne_phText_of_noDollar s' q (hlit _ htk))]
  | ph p =>
    show substSeg (phText q) (phValue d q) (if p ∈ done then phValue d p else phText p) =
      (if p ∈ q :: done then phValue d p else phText p)
    by_cases hp : p ∈ done
    · rw [if_pos hp, if_pos (List.mem_cons_of_mem q hp)]
      unfold substSeg
      rw [if_neg (ne_phText_of_noDollar _ q (hvals p))]
    · by_cases hpq : p = q
      · subst hpq
        rw [if_neg hp, if_pos (List.mem_cons_self p done)]
        unfold substSeg
        rw [if_pos rfl]
      · rw [if_neg hp, if_neg (by simp [List.mem_cons, hpq, hp])]
        unfold substSeg
        rw [if_neg (phText_inj p q hpq)]

/-- C6 counterexample: for the template consisting of exactly the urls
placeholder and an intent whose single URL contains the literal text of
the pattern placeholder, the rendered body is not the JSON serialization
of the urls — the pattern placeholder, although absent from the
template, was substituted inside the inserted value. -/
theorem processTemplate_claim_false :
    processTemplateL (toL ("${urls}"))
        { urls := [("${pattern}")], purgeAll := false,
          pattern := ("P"), timestamp := ("T") } ≠
      jsonArray [("${pattern}")] ∧
    processTemplateL (toL ("${urls}"))
        { urls := [("${pattern}")], purgeAll := false,
          pattern := ("P"), timestamp := ("T") } =
      toL ("[\"\"P\"\"]") :=
  ⟨by decide, by decide⟩

/-- C6 amended: body rendering is four sequential global substitution
passes in source order urls, purgeAll, timestamp, pattern.  For every
template decomposed into dollar-free literal chunks and placeholder
occurrences, and every intent whose serialized values are dollar-free,
every occurrence of each of the four placeholders is replaced by the
serialization of that placeholder, and placeholders absent from the template
are left unsubstituted; rendering is total and never fails.  When a
serialized value itself contains placeholder text, later passes may
substitute inside it (see the counterexample). -/
theorem processTemplate_chunks (ts : List Tok) (d : InvalidationData)
    (hlit : ∀ tk ∈ ts, tokLitOk tk)
    (hu : noDollar (jsonArray d.urls))
    (htm : noDollar (stripQuotes (jsonString d.timestamp)))
    (hpa : noDollar (jsonString d.pattern)) :
    processTemplateL (cat (ts.map (tokSeg d []))) d =
      cat (ts.map (tokSeg d [Ph.pattern, Ph.timestamp, Ph.purgeAll, Ph.urls])) := by
  have hvals : ∀ p, noDollar (phValue d p) := by
    intro p
    cases p
    · exact hu
    · exact jsonBool_noDollar d.purgeAll
    · exact htm
    · exact hpa
  show replaceAll (phText Ph.pattern) (phValue d Ph.pattern)
      (replaceAll (phText Ph.timestamp) (phValue d Ph.timestamp)
        (replaceAll (phText Ph.purgeAll) (phValue d Ph.purgeAll)
          (replaceAll (phText Ph.urls) (phValue d Ph.urls) (cat (ts.map (tokSeg d [])))))) = _
  rw [replaceAll_eq_verbatim (phText Ph.urls) (phValue d Ph.urls) _
    (noDollar_dollarSafe _ (hvals Ph.urls))]
  rw [replaceAll_eq_verbatim (phText Ph.purgeAll) (phValue d Ph.purgeAll) _
    (noDollar_dollarSafe _ (hvals Ph.purgeAll))]
  rw [replaceAll_eq_verbatim (phText Ph.timestamp) (phValue d Ph.timestamp) _
    (noDollar_dollarSafe _ (hvals Ph.timestamp))]
  rw [replaceAll_eq_verbatim (phText Ph.pattern) (phValue d Ph.pattern) _
    (noDollar_dollarSafe _ (hvals Ph.pattern))]
  rw [tokSeg_pass d Ph.urls [] (by decide) ts hlit hvals]
  rw [tokSeg_pass d Ph.purgeAll [Ph.urls] (by decide) ts hlit hvals]
  rw [tokSeg_pass d Ph.timestamp [Ph.purgeAll, Ph.urls] (by decide) ts hlit hvals]
  rw [tokSeg_pass d Ph.pattern [Ph.timestamp, Ph.purgeAll, Ph.urls] (by decide) ts hlit hvals]

/-- C6 amended witness: a two-chunk template around one urls placeholder
renders to the chunks around the serialized url list. -/
theorem processTemplate_chunks_witness :
    (∀ tk ∈ [Tok.lit (toL ("A ")), Tok.ph Ph.urls, Tok.lit (toL (" B"))], tokLitOk tk) ∧
    noDollar (jsonArray [("/x")]) ∧
    noDollar (stripQuotes (jsonString ("T"))) ∧
    noDollar (jsonString ("/p"))  ∧
    processTemplateL
        (cat ([Tok.lit (toL ("A ")), Tok.ph Ph.urls, Tok.lit (toL (" B"))].map
          (tokSeg { urls := [("/x")], purgeAll := true, pattern := ("/p"), timestamp := ("T") } [])))
        { urls := [("/x")], purgeAll := true, pattern := ("/p"), timestamp := ("T") } =
      cat ([Tok.lit (toL ("A ")), Tok.ph Ph.urls, Tok.lit (toL (" B"))].map
        (tokSeg { urls := [("/x")], purgeAll := true, pattern := ("/p"), timestamp := ("T") }
          [Ph.pattern, Ph.timestamp, Ph.purgeAll, Ph.urls])) :=
  ⟨by decide, by decide, by decide, by decide,
    processTemplate_chunks _ _ (by decide) (by decide) (by decide) (by decide)⟩

/-- C7 counterexample: with the template consisting of exactly the urls
placeholder and an intent whose single URL contains the literal text of
the purgeAll placeholder, the text inserted by the urls substitution is
itself rewritten by the later purgeAll pass, so rendering is not a
single non-nested substitution. -/
theorem template_single_pass_claim_false :
    processTemplateL (toL ("${urls}"))
        { urls := [("${purgeAll}")], purgeAll := false,
          pattern := ("Q"), timestamp := ("T") } =
      toL ("[\"false\"]") ∧
    toL ("[\"false\"]") ≠ jsonArray [("${purgeAll}")] :=
  ⟨by decide, by decide⟩

/-- C7 amended: body rendering is four sequential substitution passes in
the fixed order urls, purgeAll, timestamp, pattern.  Text introduced by
an earlier pass is subject to substitution by the later passes — a urls
value containing the purgeAll placeholder text is rewritten to the
serialized purgeAll boolean — while text introduced by the final
pattern pass is never re-scanned by any placeholder pass: whenever the
JSON serialization of the pattern value is free of the replacement
escape sequences (no dollar directly followed by dollar, ampersand,
backquote or quote — in particular any value made of placeholder texts),
the pattern-only template renders to exactly that serialization, even
when the value is itself placeholder text. -/
theorem template_sequential_passes (ps : String) (b : Bool)
    (hps : dollarSafe (jsonString ps)) :
    processTemplateL (phText Ph.pattern)
        { urls := [("/a")], purgeAll := false, pattern := ps, timestamp := ("T") } =
      jsonString ps ∧
    processTemplateL (phText Ph.urls)
        { urls := [("${purgeAll}")], purgeAll := b, pattern := ("Q"), timestamp := ("T") } =
      toL ("[\"") ++ jsonBool b ++ toL ("\"]") := by
  constructor
  · show replaceAll (phText Ph.pattern) (jsonString ps)
        (replaceAll (phText Ph.timestamp) (stripQuotes (jsonString ("T")))
          (replaceAll (phText Ph.purgeAll) (jsonBool false)
            (replaceAll (phText Ph.urls) (jsonArray [("/a")]) (phText Ph.pattern)))) =
      jsonString ps
    rw [show replaceAll (phText Ph.urls) (jsonArray [("/a")]) (phText Ph.pattern) =
      phText Ph.pattern from by decide]
    rw [show replaceAll (phText Ph.purgeAll) (jsonBool false) (phText Ph.pattern) =
      phText Ph.pattern from by decide]
    rw [show replaceAll (phText Ph.timestamp) (stripQuotes (jsonString ("T"))) (phText Ph.pattern) =
      phText Ph.pattern from by decide]
    rw [replaceAll_self (phText Ph.pattern) (jsonString ps) (phText_ne_nil Ph.pattern)]
    exact getSub_id _ _ _ (jsonString ps) hps
  · cases b with
    | false => decide
    | true => decide

/-- C7 amended witness: a pattern value consisting of all four
placeholder texts is rendered verbatim by the pattern-only template,
and a urls value holding the purgeAll placeholder text is rewritten by
the later pass. -/
theorem template_sequential_passes_witness :
    dollarSafe (jsonString ("${urls}${purgeAll}${timestamp}${pattern}")) ∧
    (processTemplateL (phText Ph.pattern)
        { urls := [("/a")], purgeAll := false,
          pattern := ("${urls}${purgeAll}${timestamp}${pattern}"), timestamp := ("T") } =
      jsonString ("${urls}${purgeAll}${timestamp}${pattern}") ∧
    processTemplateL (phText Ph.urls)
        { urls := [("${purgeAll}")], purgeAll := true, pattern := ("Q"), timestamp := ("T") } =
      toL ("[\"") ++ jsonBool true ++ toL ("\"]")) :=
  ⟨by decide,
    template_sequential_passes ("${urls}${purgeAll}${timestamp}${pattern}") true (by decide)⟩

/-! ## Header templater -/

theorem fireDueTimers_fst (now : Nat) :
    ∀ l : List Timer, (fireDueTimers now l).1 = l.map (fireFn now) := by
  intro l
  induction l with
  | nil => rfl
  | cons tm rest ih =>
    simp only [fireDueTimers, List.map_cons]
    by_cases h : tm.status = TimerStatus.pending ∧ tm.fireTime ≤ now
    · rw [if_pos h]
      show { tm with status := TimerStatus.fired } :: (fireDueTimers now rest).1 =
        fireFn now tm :: rest.map (fireFn now)
      rw [ih]
      congr 1
      unfold fireFn
      rw [if_pos h]
    · rw [if_neg h]
      show tm :: (fireDueTimers now rest).1 = fireFn now tm :: rest.map (fireFn now)
      rw [ih]
      congr 1
      unfold fireFn
      rw [if_neg h]

theorem fireDueTimers_none (now : Nat) :
    ∀ l : List Timer,
      (∀ tm ∈ l, ¬(tm.status = TimerStatus.pending ∧ tm.fireTime ≤ now)) →
      fireDueTimers now l = (l, []) := by
  intro l
  induction l with
  | nil => intro h; rfl
  | cons tm rest ih =>
    intro h
    simp only [fireDueTimers]
    rw [if_neg (h tm (List.mem_cons_self tm rest))]
    rw [ih (fun x hx => h x (List.mem_cons_of_mem tm hx))]

theorem fireDueTimers_append (now : Nat) :
    ∀ (pre l : List Timer), (∀ tm ∈ pre, tm.status ≠ TimerStatus.pending) →
      fireDueTimers now (pre ++ l) =
        (pre ++ (fireDueTimers now l).1, (fireDueTimers now l).2) := by
  intro pre
  induction pre with
  | nil => intro l h; rfl
  | cons tm pre ih =>
    intro l h
    show fireDueTimers now (tm :: (pre ++ l)) = _
    simp only [fireDueTimers]
    rw [if_neg (fun hc => h tm (List.mem_cons_self tm pre) hc.1)]
    rw [ih l (fun x hx => h x (List.mem_cons_of_mem tm hx))]
    rfl

theorem clearTimeoutAt_len_append :
    ∀ (pre : List Timer) (tm : Timer) (rest : List Timer),
      clearTimeoutAt pre.length (pre ++ tm :: rest) = pre ++ clearFn tm :: rest := by
  intro pre
  induction pre with
  | nil => intro tm rest; rfl
  | cons x pre ih =>
    intro tm rest
    show x :: clearTimeoutAt pre.length (pre ++ tm :: rest) = x :: (pre ++ clearFn tm :: rest)
    rw [ih tm rest]

theorem clearFn_not_pending (tm : Timer) : (clearFn tm).status ≠ TimerStatus.pending := by
  unfold clearFn
  by_cases h : tm.status = TimerStatus.pending
  · rw [if_pos h]
    simp
  · rw [if_neg h]
    exact h

theorem fireFn_pending (now : Nat) (tm : Timer)
    (h : (fireFn now tm).status = TimerStatus.pending) :
    tm.status = TimerStatus.pending := by
  unfold fireFn at h
  by_cases hc : tm.status = TimerStatus.pending ∧ tm.fireTime ≤ now
  · rw [if_pos hc] at h
    exact absurd h (by simp)
  · rw [if_neg hc] at h
    exact h

theorem armed_debounce (s : WMState) (ft : Nat) (p : String) (D : List String)
    (hA : Armed s ft p D) (now : Nat) (hlt : now < ft) (p₂ : String) :
    Armed (debouncePurgeCache now p₂ (fireDue now s)) (now + debounceTime) p₂ D := by
  obtain ⟨pre, htimers, hpre, hhandle, hD⟩ := hA
  obtain ⟨tms, hdl, disp⟩ := s
  simp only at htimers hhandle hD
  rw [htimers, hhandle, hD]
  have h1 : fireDueTimers now (pre ++ [pendingTimer ft p]) =
      (pre ++ [pendingTimer ft p], []) := by
    rw [fireDueTimers_append now pre _ hpre]
    rw [fireDueTimers_none now _ (by
      intro tm hm
      have htm : tm = pendingTimer ft p := by simpa using hm
      rw [htm]
      intro hc
      exact Nat.lt_irrefl now (Nat.lt_of_lt_of_le hlt hc.2))]
  show Armed (debouncePurgeCache now p₂
      { timers := (fireDueTimers now (pre ++ [pendingTimer ft p])).1,
        cachePurgeTimeout := some pre.length,
        dispatched := D ++ (fireDueTimers now (pre ++ [pendingTimer ft p])).2 })
    (now + debounceTime) p₂ D
  rw [h1]
  rw [List.append_nil]
  show Armed
      { timers := clearTimeoutAt pre.length (pre ++ [pendingTimer ft p]) ++
          [pendingTimer (now + debounceTime) p₂],
        cachePurgeTimeout :=
          some (clearTimeoutAt pre.length (pre ++ [pendingTimer ft p])).length,
        dispatched := D }
    (now + debounceTime) p₂ D
  rw [clearTimeoutAt_len_append pre _ []]
  refine ⟨pre ++ [clearFn (pendingTimer ft p)], rfl, ?_, rfl, rfl⟩
  intro tm hm
  rcases List.mem_append.mp hm with hq | hq
  · exact hpre tm hq
  · have htm : tm = clearFn (pendingTimer ft p) := by simpa using hq
    rw [htm]
    exact clearFn_not_pending _

theorem armed_run :
    ∀ (calls : List (Nat × String)) (t : Nat) (p : String) (D : List String) (s : WMState),
      Armed s (t + debounceTime) p D → chainOK t calls →
      Armed (runBurst calls s) ((lastCall (t, p) calls).1 + debounceTime)
        (lastCall (t, p) calls).2 D := by
  intro calls
  induction calls with
  | nil => intro t p D s hA hc; exact hA
  | cons c rest ih =>
    obtain ⟨t₁, p₁⟩ := c
    intro t p D s hA hc
    obtain ⟨h1, h2, h3⟩ := hc
    exact ih t₁ p₁ D _ (armed_debounce s (t + debounceTime) p D hA t₁ h2 p₁) h3

theorem armed_fire (s : WMState) (ft : Nat) (p : String) (D : List String)
    (hA : Armed s ft p D) (now : Nat) (hle : ft ≤ now) :
    (fireDue now s).dispatched = D ++ [p] ∧ pendingCount (fireDue now s) = 0 := by
  obtain ⟨pre, htimers, hpre, hhandle, hD⟩ := hA
  obtain ⟨tms, hdl, disp⟩ := s
  simp only at htimers hhandle hD
  rw [htimers, hD]
  have h2 : fireDueTimers now [pendingTimer ft p] = ([firedTimer ft p], [p]) := by
    simp only [fireDueTimers]
    rw [if_pos ⟨rfl, hle⟩]
    rfl
  have h1 : fireDueTimers now (pre ++ [pendingTimer ft p]) =
      (pre ++ [firedTimer ft p], [p]) := by
    rw [fireDueTimers_append now pre _ hpre, h2]
  constructor
  · show D ++ (fireDueTimers now (pre ++ [pendingTimer ft p])).2 = D ++ [p]
    rw [h1]
  · show (fireDueTimers now (pre ++ [pendingTimer ft p])).1.countP
        (fun tm => tm.status == TimerStatus.pending) = 0
    rw [h1]
    rw [List.countP_append]
    rw [List.countP_eq_zero.mpr (by
      intro tm hm
      have := hpre tm hm
      simpa using this)]
    simp [firedTimer]

theorem clearTimeoutAt_get? :
    ∀ (l : List Timer) (h i : Nat),
      (clearTimeoutAt h l).get? i =
        if i = h then (l.get? i).map clearFn else l.get? i := by
  intro l
  induction l with
  | nil =>
    intro h i
    have htriv : clearTimeoutAt h ([] : List Timer) = [] := by cases h <;> rfl
    rw [htriv]
    by_cases hih : i = h
    · rw [if_pos hih]
      simp
    · rw [if_neg hih]
  | cons tm rest ih =>
    intro h i
    cases h with
    | zero =>
      cases i with
      | zero => rfl
      | succ j =>
        show rest.get? j = if j + 1 = 0 then ((tm :: rest).get? (j + 1)).map clearFn else rest.get? j
        rw [if_neg (by omega)]
    | succ g =>
      cases i with
      | zero =>
        show some tm = if 0 = g + 1 then (some tm).map clearFn else some tm
        rw [if_neg (by omega)]
      | succ j =>
        show (clearTimeoutAt g rest).get? j =
          if j + 1 = g + 1 then (rest.get? j).map clearFn else rest.get? j
        rw [ih g j]
        by_cases hjg : j = g
        · rw [if_pos hjg, if_pos (by omega)]
        · rw [if_neg hjg, if_neg (by omega)]

theorem handleInv_debounce (s : WMState) (now : Nat) (p : String)
    (h : HandleInv s) : HandleInv (debouncePurgeCache now p s) := by
  obtain ⟨tms, hdl, disp⟩ := s
  have key : ∀ (ts : List Timer),
      (∀ i tm, ts.get? i = some tm → tm.status ≠ TimerStatus.pending) →
      HandleInv { timers := ts ++ [pendingTimer (now + debounceTime) p],
                  cachePurgeTimeout := some ts.length,
                  dispatched := disp } := by
    intro ts hts
    show ∀ i tm, (ts ++ [pendingTimer (now + debounceTime) p]).get? i = some tm →
      tm.status = TimerStatus.pending → i = ts.length
    intro i tm hg hp
    by_cases hi : i < ts.length
    · rw [List.get?_append hi] at hg
      exact absurd hp (hts i tm hg)
    · by_cases hi2 : i = ts.length
      · exact hi2
      · have hge : ts.length ≤ i := by omega
        rw [List.get?_append_right hge] at hg
        obtain ⟨j, hj⟩ : ∃ j, i - ts.length = j + 1 := ⟨i - ts.length - 1, by omega⟩
        rw [hj] at hg
        simp at hg
  cases hdl with
  | none =>
    exact key tms (fun i tm hg hp => h tm (List.get?_mem hg) hp)
  | some hd =>
    refine key (clearTimeoutAt hd tms) ?_
    intro i tm hg
    rw [clearTimeoutAt_get?] at hg
    by_cases hih : i = hd
    · rw [if_pos hih] at hg
      cases hg2 : tms.get? i with
      | none =>
        rw [hg2] at hg
        simp at hg
      | some tm0 =>
        rw [hg2] at hg
        have htm : tm = clearFn tm0 := by simpa using hg.symm
        rw [htm]
        exact clearFn_not_pending tm0
    · rw [if_neg hih] at hg
      intro hp
      exact hih (h i tm hg hp)

theorem handleInv_fire (s : WMState) (now : Nat) (h : HandleInv s) :
    HandleInv (fireDue now s) := by
  obtain ⟨tms, hdl, disp⟩ := s
  cases hdl with
  | none =>
    show ∀ tm ∈ (fireDueTimers now tms).1, tm.status ≠ TimerStatus.pending
    rw [fireDueTimers_fst]
    intro tm hm
    obtain ⟨tm0, hm0, rfl⟩ := List.mem_map.mp hm
    intro hp
    exact h tm0 hm0 (fireFn_pending now tm0 hp)
  | some hd =>
    show ∀ i tm, ((fireDueTimers now tms).1).get? i = some tm →
      tm.status = TimerStatus.pending → i = hd
    rw [fireDueTimers_fst]
    intro i tm hg hp
    rw [List.get?_map] at hg
    cases hg2 : tms.get? i with
    | none =>
      rw [hg2] at hg
      simp at hg
    | some tm0 =>
      rw [hg2] at hg
      have htm : tm = fireFn now tm0 := by simpa using hg.symm
      rw [htm] at hp
      exact h i tm0 hg2 (fireFn_pending now tm0 hp)

theorem handleInv_init : HandleInv initState := by
  show ∀ tm ∈ ([] : List Timer), tm.status ≠ TimerStatus.pending
  intro tm hm
  exact absurd hm (List.not_mem_nil tm)

theorem runBurst_inv : ∀ (calls : List (Nat × String)) (s : WMState),
    HandleInv s → HandleInv (runBurst calls s) := by
  intro calls
  induction calls with
  | nil => intro s h; exact h
  | cons c rest ih =>
    obtain ⟨t, p⟩ := c
    intro s h
    exact ih _ (handleInv_debounce _ t p (handleInv_fire s t h))

theorem countP_pending_le_one :
    ∀ (l : List Timer) (hd : Nat),
      (∀ i tm, l.get? i = some tm → tm.status = TimerStatus.pending → i = hd) →
      l.countP (fun tm => tm.status == TimerStatus.pending) ≤ 1 := by
  intro l
  induction l with
  | nil => intro hd h; simp
  | cons tm rest ih =>
    intro hd h
    rw [List.countP_cons]
    by_cases hp : tm.status = TimerStatus.pending
    · have hrest : rest.countP (fun tm => tm.status == TimerStatus.pending) = 0 := by
        rw [List.countP_eq_zero]
        intro x hx hxp
        have hxp2 : x.status = TimerStatus.pending := by simpa using hxp
        obtain ⟨j, hj⟩ := List.mem_iff_get?.mp hx
        have hj2 := h (j + 1) x (by simpa using hj) hxp2
        have h0 := h 0 tm rfl hp
        omega
      rw [hrest]
      have hb : (tm.status == TimerStatus.pending) = true := by simpa using hp
      rw [hb]
      simp
    · have hrest := ih (hd - 1) (fun j tm' hj hp' => by
        have := h (j + 1) tm' (by simpa using hj) hp'
        omega)
      have hb : (tm.status == TimerStatus.pending) = false := by simpa using hp
      rw [hb]
      simpa using hrest

theorem pendingCount_le_one (s : WMState) (h : HandleInv s) : pendingCount s ≤ 1 := by
  obtain ⟨tms, hdl, disp⟩ := s
  cases hdl with
  | none =>
    show tms.countP (fun tm => tm.status == TimerStatus.pending) ≤ 1
    rw [List.countP_eq_zero.mpr (by
      intro tm hm hp
      exact h tm hm (by simpa using hp))]
    omega
  | some hd => exact countP_pending_le_one tms hd h

/-- C1: for any burst of one or more schedule calls, each arriving
within the 10,000 ms quiescence window of the previous one, nothing is
dispatched during the burst, exactly one delivery is dispatched once the
window after the last call elapses, carrying the pattern of the last
call (all earlier patterns are discarded), no timer remains pending
afterwards, and at every step of the burst at most one timer is
pending. -/
theorem debounce_burst (t₀ : Nat) (p₀ : String) (rest : List (Nat × String))
    (hchain : chainOK t₀ rest) :
    (runBurst ((t₀, p₀) :: rest) initState).dispatched = [] ∧
    (fireDue ((lastCall (t₀, p₀) rest).1 + debounceTime)
        (runBurst ((t₀, p₀) :: rest) initState)).dispatched =
      [(lastCall (t₀, p₀) rest).2] ∧
    pendingCount (fireDue ((lastCall (t₀, p₀) rest).1 + debounceTime)
        (runBurst ((t₀, p₀) :: rest) initState)) = 0 ∧
    (∀ k, pendingCount (runBurst (((t₀, p₀) :: rest).take k) initState) ≤ 1) := by
  have hA1 : Armed (debouncePurgeCache t₀ p₀ (fireDue t₀ initState))
      (t₀ + debounceTime) p₀ [] := by
    refine ⟨[], rfl, ?_, rfl, rfl⟩
    intro tm hm
    exact absurd hm (List.not_mem_nil tm)
  have hrun := armed_run rest t₀ p₀ [] _ hA1 hchain
  have h23 := armed_fire _ _ _ _ hrun
    ((lastCall (t₀, p₀) rest).1 + debounceTime) (le_refl _)
  obtain ⟨pre, htimers, hpre, hhandle, hD⟩ := hrun
  refine ⟨hD, ?_, h23.2, ?_⟩
  · have hx := h23.1
    rw [List.nil_append] at hx
    exact hx
  · intro k
    exact pendingCount_le_one _ (runBurst_inv _ _ handleInv_init)

/-- C1 witness: three calls at 0, 5000 and 9000 ms; one dispatch with
the last pattern once the window elapses. -/
theorem debounce_burst_witness :
    chainOK 0 [(5000, ("/b")), (9000, ("/*"))] ∧
    ((runBurst [(0, ("/a")), (5000, ("/b")), (9000, ("/*"))] initState).dispatched = [] ∧
      (fireDue ((lastCall (0, ("/a")) [(5000, ("/b")), (9000, ("/*"))]).1 + debounceTime)
          (runBurst [(0, ("/a")), (5000, ("/b")), (9000, ("/*"))] initState)).dispatched =
        [(lastCall (0, ("/a")) [(5000, ("/b")), (9000, ("/*"))]).2] ∧
      pendingCount (fireDue ((lastCall (0, ("/a")) [(5000, ("/b")), (9000, ("/*"))]).1 + debounceTime)
          (runBurst [(0, ("/a")), (5000, ("/b")), (9000, ("/*"))] initState)) = 0 ∧
      (∀ k, pendingCount
        (runBurst ([(0, ("/a")), (5000, ("/b")), (9000, ("/*"))].take k) initState) ≤ 1)) :=
  ⟨by decide, debounce_burst 0 ("/a") [(5000, ("/b")), (9000, ("/*"))] (by decide)⟩

end GhostProxy
